import Mathlib

/-!
Verification of the homomorphic SHA-256 evaluator (`sha256-tfhe`).

The development shallowly embeds the Rust sources.  The external FHE
bit-gate layer (`tfhe::boolean`) is out of scope of the repository; its
contract (spec §2, §6) is that a bit ciphertext carries exactly one
plaintext bit and that the gates AND/OR/XOR/NOT act homomorphically on
those bits, with `encrypt`/`trivial_encrypt`/`decrypt` the evident maps.
We therefore represent a bit ciphertext by the plaintext bit it carries:
`Ciphertext := Bool`, gates are the boolean operations, and
encryption/decryption of a bit are the identity.  Rust `u32` values are
represented by `Nat` (with explicit `% 2^32` where overflow matters),
bytes by `Nat`, and panicking operations return `Option` (`none` models
an abort).
-/

namespace ShaTfhe

/-- Bit ciphertext, represented by the plaintext bit it encrypts
(plaintext semantics of the external gate layer). -/
abbrev Ciphertext := Bool

/-- Embeds `bits` from `src/u32ct.rs`: the `n`-iteration loop extracting
`x & 1` then shifting `x` right, least-significant bit first. -/
def bitsAux : Nat → Nat → List Bool
  | 0, _ => []
  | n + 1, x => ((x &&& 1) == 1) :: bitsAux n (x >>> 1)

/-- `bits` from `src/u32ct.rs`: the 32 bits of `x`, LSB first. -/
def bits (x : Nat) : List Bool := bitsAux 32 x

/-- `from_bits` from `src/u32ct.rs`: `r = 0`, then for each bit from the
most-significant end, `r := 2r + bit`. -/
def from_bits (bs : List Bool) : Nat :=
  bs.reverse.foldl (fun r b => 2 * r + b.toNat) 0

/-- LSB-first value of a bit list; proved equal to `from_bits` below. -/
def listVal : List Bool → Nat
  | [] => 0
  | b :: bs => b.toNat + 2 * listVal bs

/-- `full_adder` from `src/u32ct.rs`, on the plaintext semantics:
`sum = a XOR b XOR c_in`, `c_out = ((a XOR b) AND c_in) OR (a AND b)`. -/
def full_adder (a b c_in : Ciphertext) : Ciphertext × Ciphertext :=
  let a_xor_b := Bool.xor a b
  let s := Bool.xor a_xor_b c_in
  let axb_and_c_in := a_xor_b && c_in
  let a_and_b := a && b
  let c_out := axb_and_c_in || a_and_b
  (s, c_out)

/-- The ripple loop inside `U32Ct::add`: zip the two bit vectors and map
the full adder across them, threading the carry. -/
def rippleAdd : List Ciphertext → List Ciphertext → Ciphertext → List Ciphertext
  | a :: as, b :: bs, c =>
    let sc := full_adder a b c
    sc.1 :: rippleAdd as bs sc.2
  | _, _, _ => []

theorem bitsAux_length (n x : Nat) : (bitsAux n x).length = n := by
  induction n generalizing x with
  | zero => rfl
  | succ n ih => simp [bitsAux, ih]

theorem bits_length (x : Nat) : (bits x).length = 32 := bitsAux_length 32 x

theorem rippleAdd_length (as bs : List Ciphertext) (c : Ciphertext) :
    (rippleAdd as bs c).length = min as.length bs.length := by
  induction as generalizing bs c with
  | nil => cases bs <;> simp [rippleAdd]
  | cons a as ih =>
    cases bs with
    | nil => simp [rippleAdd]
    | cons b bs => simp [rippleAdd, ih]; omega

/-- `U32Ct` from `src/u32ct.rs`: 32 bit ciphertexts, least significant
bit first.  The length invariant of the Rust array `[Ciphertext; 32]`
is carried in the structure. -/
structure U32Ct where
  inner : List Ciphertext
  len32 : inner.length = 32

/-- `U32Ct::encrypt` (plaintext semantics: each bit ciphertext is its
plaintext bit). -/
def U32Ct.encrypt (x : Nat) : U32Ct := ⟨bits x, bits_length x⟩

/-- `U32Ct::trivial_encrypt`: identical bit decomposition, trivial
ciphertexts. -/
def U32Ct.trivial_encrypt (x : Nat) : U32Ct := ⟨bits x, bits_length x⟩

/-- `U32Ct::decrypt`: decrypt each bit and recompose LSB-first. -/
def U32Ct.decrypt (c : U32Ct) : Nat := from_bits c.inner

/-- `U32Ct::add` from `src/u32ct.rs`: ripple-carry adder starting from a
trivially encrypted `false` carry; the final carry is discarded. -/
def U32Ct.add (x y : U32Ct) : U32Ct :=
  ⟨rippleAdd x.inner y.inner false, by
    rw [rippleAdd_length, x.len32, y.len32]; rfl⟩

/-- `U32Ct::bitxor`: elementwise XOR gate. -/
def U32Ct.bitxor (x y : U32Ct) : U32Ct :=
  ⟨List.zipWith Bool.xor x.inner y.inner, by
    rw [List.length_zipWith, x.len32, y.len32]; rfl⟩

/-- `U32Ct::bitand`: elementwise AND gate. -/
def U32Ct.bitand (x y : U32Ct) : U32Ct :=
  ⟨List.zipWith (fun a b => a && b) x.inner y.inner, by
    rw [List.length_zipWith, x.len32, y.len32]; rfl⟩

/-- `U32Ct::bitnot`: elementwise NOT gate. -/
def U32Ct.bitnot (x : U32Ct) : U32Ct :=
  ⟨x.inner.map (fun b => !b), by rw [List.length_map, x.len32]⟩

/-- `U32Ct::rotate_right` from `src/u32ct.rs`: `inner.rotate_left(shift)`
on the slot array.  Rust's `slice::rotate_left(mid)` panics when
`mid` exceeds the length (32), modelled by `none`; otherwise the first
`shift` slots move to the end. -/
def U32Ct.rotate_right (x : U32Ct) (shift : Nat) : Option U32Ct :=
  if h : shift ≤ 32 then
    some ⟨x.inner.drop shift ++ x.inner.take shift, by
      rw [List.length_append, List.length_drop, List.length_take, x.len32]
      omega⟩
  else none

/-- The overwrite loop inside `U32Ct::shift_right`: for `i in 0..shift`,
slot `31 - i` is set to a trivially encrypted `false`. -/
def clearTop (l : List Ciphertext) (shift : Nat) : List Ciphertext :=
  (List.range shift).foldl (fun acc i => acc.set (31 - i) false) l

theorem clearTop_length (l : List Ciphertext) (shift : Nat) :
    (clearTop l shift).length = l.length := by
  unfold clearTop
  induction shift with
  | zero => simp
  | succ n ih =>
    rw [List.range_succ, List.foldl_append]
    simp [ih]

/-- `U32Ct::shift_right` from `src/u32ct.rs`: `inner.rotate_left(shift)`
(panicking when `shift > 32`, modelled by `none`), then the top `shift`
slots are overwritten with trivially encrypted `false`. -/
def U32Ct.shift_right (x : U32Ct) (shift : Nat) : Option U32Ct :=
  if h : shift ≤ 32 then
    some ⟨clearTop (x.inner.drop shift ++ x.inner.take shift) shift, by
      rw [clearTop_length, List.length_append, List.length_drop,
        List.length_take, x.len32]
      omega⟩
  else none

/-! Value semantics of bit lists. -/

theorem from_bits_eq_listVal (bs : List Bool) : from_bits bs = listVal bs := by
  induction bs with
  | nil => rfl
  | cons b bs ih =>
    unfold from_bits at *
    rw [List.reverse_cons, List.foldl_append, ih, listVal]
    simp; omega

theorem listVal_lt (bs : List Bool) : listVal bs < 2 ^ bs.length := by
  induction bs with
  | nil => simp [listVal]
  | cons b bs ih =>
    have hb : b.toNat ≤ 1 := Bool.toNat_le b
    simp only [listVal, List.length_cons, Nat.pow_succ]
    omega

theorem listVal_testBit (bs : List Bool) (i : Nat) :
    (listVal bs).testBit i = bs.getD i false := by
  induction bs generalizing i with
  | nil => simp [listVal]
  | cons b bs ih =>
    cases i with
    | zero =>
      simp only [listVal, Nat.testBit_zero, List.getD_cons_zero]
      cases b <;> simp
    | succ i =>
      rw [Nat.testBit_succ, List.getD_cons_succ, ← ih]
      have : (b.toNat + 2 * listVal bs) / 2 = listVal bs := by
        cases b <;> simp <;> omega
      rw [listVal, this]

theorem bitsAux_getD (n x i : Nat) :
    (bitsAux n x).getD i false = (decide (i < n) && x.testBit i) := by
  induction n generalizing x i with
  | zero => simp [bitsAux]
  | succ n ih =>
    cases i with
    | zero =>
      simp only [bitsAux, List.getD_cons_zero, Nat.testBit_zero]
      rw [Nat.and_one_is_mod]
      have hd : decide (0 < n + 1) = true := by simp
      rw [hd, Bool.true_and]
      cases h2 : x % 2 == 1
      · simp only [beq_eq_false_iff_ne, ne_eq] at h2
        simp [h2]
      · simp only [beq_iff_eq] at h2
        simp [h2]
    | succ i =>
      simp only [bitsAux, List.getD_cons_succ, ih, Nat.testBit_succ,
        Nat.shiftRight_one]
      simp

theorem listVal_bits (x : Nat) : listVal (bits x) = x % 2 ^ 32 := by
  apply Nat.eq_of_testBit_eq
  intro i
  rw [listVal_testBit, Nat.testBit_mod_two_pow, bits, bitsAux_getD]

theorem decrypt_eq_listVal (x : U32Ct) : x.decrypt = listVal x.inner :=
  from_bits_eq_listVal x.inner

theorem decrypt_lt (x : U32Ct) : x.decrypt < 2 ^ 32 := by
  rw [decrypt_eq_listVal]
  have := listVal_lt x.inner
  rwa [x.len32] at this

theorem decrypt_encrypt (x : Nat) : (U32Ct.encrypt x).decrypt = x % 2 ^ 32 := by
  rw [decrypt_eq_listVal]
  exact listVal_bits x

theorem decrypt_trivial_encrypt (x : Nat) :
    (U32Ct.trivial_encrypt x).decrypt = x % 2 ^ 32 :=
  decrypt_encrypt x

/-! Correctness of the word-level circuits with respect to `Nat`
arithmetic on the decrypted values. -/

theorem full_adder_toNat (a b c : Bool) :
    (full_adder a b c).1.toNat + 2 * (full_adder a b c).2.toNat =
      a.toNat + b.toNat + c.toNat := by
  cases a <;> cases b <;> cases c <;> rfl

theorem listVal_rippleAdd (as bs : List Bool) (c : Bool)
    (h : as.length = bs.length) :
    listVal (rippleAdd as bs c) =
      (listVal as + listVal bs + c.toNat) % 2 ^ as.length := by
  induction as generalizing bs c with
  | nil =>
    cases bs with
    | nil => cases c <;> rfl
    | cons b bs => simp at h
  | cons a as ih =>
    cases bs with
    | nil => simp at h
    | cons b bs =>
      simp only [List.length_cons, Nat.succ_inj] at h
      simp only [rippleAdd, listVal, ih _ _ h, List.length_cons]
      have hfa := full_adder_toNat a b c
      set s := (full_adder a b c).1 with hsdef
      set c2 := (full_adder a b c).2 with hc2def
      have hm : 0 < 2 ^ as.length := Nat.pos_pow_of_pos _ (by omega)
      have hs : s.toNat ≤ 1 := Bool.toNat_le s
      have hrem : (listVal as + listVal bs + c2.toNat) % 2 ^ as.length <
          2 ^ as.length := Nat.mod_lt _ hm
      have key : (a.toNat + 2 * listVal as + (b.toNat + 2 * listVal bs) +
          c.toNat) = s.toNat + 2 * (listVal as + listVal bs + c2.toNat) := by
        omega
      rw [key, Nat.pow_succ]
      have h2 : 2 * (listVal as + listVal bs + c2.toNat) % (2 ^ as.length * 2) =
          2 * ((listVal as + listVal bs + c2.toNat) % 2 ^ as.length) := by
        rw [Nat.mul_comm (2 ^ as.length) 2, Nat.mul_mod_mul_left]
      have hout : (s.toNat + 2 * ((listVal as + listVal bs + c2.toNat) %
          2 ^ as.length)) % (2 ^ as.length * 2) =
          s.toNat + 2 * ((listVal as + listVal bs + c2.toNat) %
          2 ^ as.length) := Nat.mod_eq_of_lt (by omega)
      have hsin : s.toNat % (2 ^ as.length * 2) = s.toNat :=
        Nat.mod_eq_of_lt (by omega)
      conv_rhs => rw [Nat.add_mod]
      rw [h2, hsin, hout]

theorem decrypt_add (x y : U32Ct) :
    (x.add y).decrypt = (x.decrypt + y.decrypt) % 2 ^ 32 := by
  simp only [decrypt_eq_listVal, U32Ct.add]
  rw [listVal_rippleAdd _ _ _ (by rw [x.len32, y.len32]), x.len32]
  rfl

theorem getD_zipWith_xor (as bs : List Bool) (i : Nat)
    (h : as.length = bs.length) :
    (List.zipWith Bool.xor as bs).getD i false =
      Bool.xor (as.getD i false) (bs.getD i false) := by
  simp only [List.getD_eq_getElem?_getD, List.getElem?_zipWith]
  by_cases hi : i < as.length
  · rw [List.getElem?_eq_getElem hi,
      List.getElem?_eq_getElem (show i < bs.length by omega)]
    simp
  · rw [List.getElem?_eq_none (show as.length ≤ i by omega),
      List.getElem?_eq_none (show bs.length ≤ i by omega)]
    simp

theorem decrypt_bitxor (x y : U32Ct) :
    (x.bitxor y).decrypt = x.decrypt ^^^ y.decrypt := by
  simp only [decrypt_eq_listVal, U32Ct.bitxor]
  apply Nat.eq_of_testBit_eq
  intro i
  rw [listVal_testBit, Nat.testBit_xor, listVal_testBit, listVal_testBit,
    getD_zipWith_xor _ _ _ (by rw [x.len32, y.len32])]

theorem getD_zipWith_and (as bs : List Bool) (i : Nat)
    (h : as.length = bs.length) :
    (List.zipWith (fun a b => a && b) as bs).getD i false =
      ((as.getD i false) && (bs.getD i false)) := by
  simp only [List.getD_eq_getElem?_getD, List.getElem?_zipWith]
  by_cases hi : i < as.length
  · rw [List.getElem?_eq_getElem hi,
      List.getElem?_eq_getElem (show i < bs.length by omega)]
    simp
  · rw [List.getElem?_eq_none (show as.length ≤ i by omega),
      List.getElem?_eq_none (show bs.length ≤ i by omega)]
    simp

theorem decrypt_bitand (x y : U32Ct) :
    (x.bitand y).decrypt = x.decrypt &&& y.decrypt := by
  simp only [decrypt_eq_listVal, U32Ct.bitand]
  apply Nat.eq_of_testBit_eq
  intro i
  rw [listVal_testBit, Nat.testBit_and, listVal_testBit, listVal_testBit,
    getD_zipWith_and _ _ _ (by rw [x.len32, y.len32])]

theorem decrypt_bitnot (x : U32Ct) :
    x.bitnot.decrypt = x.decrypt ^^^ (2 ^ 32 - 1) := by
  simp only [decrypt_eq_listVal, U32Ct.bitnot]
  apply Nat.eq_of_testBit_eq
  intro i
  rw [listVal_testBit, Nat.testBit_xor, listVal_testBit,
    Nat.testBit_two_pow_sub_one]
  simp only [List.getD_eq_getElem?_getD, List.getElem?_map]
  by_cases hi : i < 32
  · have hlen : i < x.inner.length := by rw [x.len32]; exact hi
    simp [List.getElem?_eq_getElem hlen, hi]
  · have hlen : x.inner.length ≤ i := by rw [x.len32]; omega
    have hv : listVal x.inner < 2 ^ i := by
      calc listVal x.inner < 2 ^ x.inner.length := listVal_lt _
      _ ≤ 2 ^ i := Nat.pow_le_pow_right (by omega) hlen
    simp [List.getElem?_eq_none hlen, hi, Nat.testBit_lt_two_pow hv]

theorem listVal_cons (b : Bool) (bs : List Bool) :
    listVal (b :: bs) = b.toNat + 2 * listVal bs := rfl

theorem listVal_append (as bs : List Bool) :
    listVal (as ++ bs) = listVal as + 2 ^ as.length * listVal bs := by
  induction as with
  | nil => simp [listVal]
  | cons a as ih =>
    rw [List.cons_append, listVal_cons, listVal_cons, ih, List.length_cons,
      Nat.pow_succ]
    ring

theorem listVal_drop (n : Nat) (as : List Bool) :
    listVal (as.drop n) = listVal as / 2 ^ n := by
  apply Nat.eq_of_testBit_eq
  intro i
  rw [listVal_testBit, ← Nat.shiftRight_eq_div_pow, Nat.testBit_shiftRight,
    listVal_testBit]
  simp only [List.getD_eq_getElem?_getD, List.getElem?_drop]

theorem listVal_take (n : Nat) (as : List Bool) :
    listVal (as.take n) = listVal as % 2 ^ n := by
  apply Nat.eq_of_testBit_eq
  intro i
  rw [listVal_testBit, Nat.testBit_mod_two_pow, listVal_testBit]
  simp only [List.getD_eq_getElem?_getD]
  by_cases hi : i < n
  · rw [List.getElem?_take_of_lt hi]
    simp [hi]
  · rw [List.getElem?_eq_none (by simp; omega)]
    simp [hi]

/-- Reference semantics of Rust `u32::rotate_right`: the low `n mod 32`
bits wrap around to the top. -/
def rotr32 (x n : Nat) : Nat :=
  x / 2 ^ (n % 32) + x % 2 ^ (n % 32) * 2 ^ (32 - n % 32)

/-- Reference semantics of Rust `u32 >> n` (logical right shift). -/
def shr32 (x n : Nat) : Nat := x / 2 ^ n

theorem listVal_rotateSlots (l : List Bool) (hl : l.length = 32) (n : Nat)
    (hn : n ≤ 32) :
    listVal (l.drop n ++ l.take n) = rotr32 (listVal l) n := by
  rw [listVal_append, listVal_drop, listVal_take, List.length_drop, hl]
  rcases Nat.lt_or_ge n 32 with h | h
  · rw [rotr32, Nat.mod_eq_of_lt h, Nat.mul_comm]
  · have h32 : n = 32 := by omega
    subst h32
    have hv : listVal l < 2 ^ 32 := hl ▸ listVal_lt l
    simp only [rotr32, Nat.mod_self, Nat.pow_zero, Nat.div_one, Nat.mod_one,
      Nat.zero_mul, Nat.add_zero]
    omega

/-- After rotating left by `shift ≤ 32`, the `clearTop` loop of
`shift_right` turns the wrapped-around `take shift` segment into zeros. -/
theorem clearTop_rotate (l : List Bool) (hl : l.length = 32) (n : Nat)
    (hn : n ≤ 32) :
    clearTop (l.drop n ++ l.take n) n = l.drop n ++ List.replicate n false := by
  have hdrop : (l.drop n).length = 32 - n := by rw [List.length_drop, hl]
  have htake : (l.take n).length = n := by
    rw [List.length_take, hl]; omega
  -- general loop invariant: clearing `m ≤ n` top slots replaces the last
  -- `m` elements of the 32-element list with `false`
  suffices h : ∀ m, m ≤ n →
      clearTop (l.drop n ++ l.take n) m =
        l.drop n ++ (l.take n).take (n - m) ++ List.replicate m false by
    have := h n le_rfl
    simpa using this
  intro m hm
  induction m with
  | zero => simp [clearTop]
  | succ k ih =>
    have hk : k ≤ n := by omega
    have hkn : k < n := by omega
    unfold clearTop at *
    rw [List.range_succ, List.foldl_append, ih hk]
    simp only [List.foldl_cons, List.foldl_nil]
    have htt : ((l.take n).take (n - k)).length = n - k := by
      rw [List.length_take, htake]; omega
    have hleft : (l.drop n ++ (l.take n).take (n - k)).length = 32 - k := by
      rw [List.length_append, hdrop, htt]; omega
    rw [List.set_append_left _ _ (by rw [hleft]; omega)]
    rw [List.set_append_right _ _ (by rw [hdrop]; omega)]
    have hidx : 31 - k - (l.drop n).length = n - k - 1 := by
      rw [hdrop]; omega
    rw [hidx]
    have hset : ((l.take n).take (n - k)).set (n - k - 1) false =
        (l.take n).take (n - (k + 1)) ++ [false] := by
      rw [List.set_eq_take_cons_drop _ (by rw [htt]; omega)]
      have h1 : ((l.take n).take (n - k)).take (n - k - 1) =
          (l.take n).take (n - (k + 1)) := by
        rw [List.take_take, List.take_take, List.take_take]
        congr 1
        omega
      have h2 : ((l.take n).take (n - k)).drop (n - k - 1 + 1) = [] := by
        rw [List.drop_eq_nil_iff, htt]
        omega
      rw [h1, h2]
    rw [hset]
    simp [List.append_assoc, List.replicate_succ]

theorem listVal_replicate_false (n : Nat) :
    listVal (List.replicate n false) = 0 := by
  induction n with
  | zero => rfl
  | succ k ih => simp [List.replicate_succ, listVal_cons, ih]

theorem decrypt_shiftSlots (l : List Bool) (hl : l.length = 32) (n : Nat)
    (hn : n ≤ 32) :
    listVal (l.drop n ++ List.replicate n false) = listVal l / 2 ^ n := by
  rw [listVal_append, listVal_drop, listVal_replicate_false]
  ring

/-- The successful result of `rotate_right` (shift within bounds): a pure
permutation of the slot list. -/
def rotateCore (x : U32Ct) (n : Nat) : U32Ct :=
  ⟨x.inner.drop n ++ x.inner.take n, by
    rw [List.length_append, List.length_drop, List.length_take, x.len32]
    omega⟩

/-- The successful result of `shift_right` (shift within bounds). -/
def shiftCore (x : U32Ct) (n : Nat) : U32Ct :=
  ⟨clearTop (x.inner.drop n ++ x.inner.take n) n, by
    rw [clearTop_length, List.length_append, List.length_drop,
      List.length_take, x.len32]
    omega⟩

theorem rotate_right_eq (x : U32Ct) (n : Nat) (hn : n ≤ 32) :
    x.rotate_right n = some (rotateCore x n) := by
  rw [U32Ct.rotate_right, dif_pos hn]
  rfl

theorem shift_right_eq (x : U32Ct) (n : Nat) (hn : n ≤ 32) :
    x.shift_right n = some (shiftCore x n) := by
  rw [U32Ct.shift_right, dif_pos hn]
  rfl

theorem decrypt_rotateCore (x : U32Ct) (n : Nat) (hn : n ≤ 32) :
    (rotateCore x n).decrypt = rotr32 x.decrypt n := by
  simp only [decrypt_eq_listVal, rotateCore]
  exact listVal_rotateSlots x.inner x.len32 n hn

theorem decrypt_shiftCore (x : U32Ct) (n : Nat) (hn : n ≤ 32) :
    (shiftCore x n).decrypt = x.decrypt / 2 ^ n := by
  simp only [decrypt_eq_listVal, shiftCore]
  rw [clearTop_rotate x.inner x.len32 n hn]
  exact decrypt_shiftSlots x.inner x.len32 n hn

/-! The SHA-256 bit-mixing helpers of `src/util.rs`, over encrypted
words.  The `Option` layer records the (never-taken) panic paths of the
constant-shift rotations. -/

/-- `sigma0` from `src/util.rs`: `ROTR(x,7) ⊕ ROTR(x,18) ⊕ SHR(x,3)`. -/
def sigma0 (x : U32Ct) : Option U32Ct := do
  let rotate_7 ← x.rotate_right 7
  let rotate_18 ← x.rotate_right 18
  let shift_3 ← x.shift_right 3
  let xor_7_18 := rotate_7.bitxor rotate_18
  some (xor_7_18.bitxor shift_3)

/-- `sigma1` from `src/util.rs`: `ROTR(x,17) ⊕ ROTR(x,19) ⊕ SHR(x,10)`. -/
def sigma1 (x : U32Ct) : Option U32Ct := do
  let rotate_17 ← x.rotate_right 17
  let rotate_19 ← x.rotate_right 19
  let shift_10 ← x.shift_right 10
  let xor_17_19 := rotate_17.bitxor rotate_19
  some (xor_17_19.bitxor shift_10)

/-- `capsigma0` from `src/util.rs`: `ROTR(x,2) ⊕ ROTR(x,13) ⊕ ROTR(x,22)`. -/
def capsigma0 (x : U32Ct) : Option U32Ct := do
  let rotate_2 ← x.rotate_right 2
  let rotate_13 ← x.rotate_right 13
  let rotate_22 ← x.rotate_right 22
  let xor_2_13 := rotate_2.bitxor rotate_13
  some (xor_2_13.bitxor rotate_22)

/-- `capsigma1` from `src/util.rs`: `ROTR(x,6) ⊕ ROTR(x,11) ⊕ ROTR(x,25)`. -/
def capsigma1 (x : U32Ct) : Option U32Ct := do
  let rotate_6 ← x.rotate_right 6
  let rotate_11 ← x.rotate_right 11
  let rotate_25 ← x.rotate_right 25
  let xor_6_11 := rotate_6.bitxor rotate_11
  some (xor_6_11.bitxor rotate_25)

/-- `ch` from `src/util.rs`: `(x AND y) ⊕ ((NOT x) AND z)`. -/
def ch (x y z : U32Ct) : U32Ct :=
  let left := x.bitand y
  let not_x := x.bitnot
  let right := not_x.bitand z
  left.bitxor right

/-- `maj` from `src/util.rs`: `(x AND y) ⊕ (x AND z) ⊕ (y AND z)`. -/
def maj (x y z : U32Ct) : U32Ct :=
  let left := x.bitand y
  let middle := x.bitand z
  let right := y.bitand z
  let fold_l := left.bitxor middle
  fold_l.bitxor right

/-- Pure counterpart of `sigma0` (all shifts in bounds). -/
def sigma0Core (x : U32Ct) : U32Ct :=
  ((rotateCore x 7).bitxor (rotateCore x 18)).bitxor (shiftCore x 3)

/-- Pure counterpart of `sigma1` (all shifts in bounds). -/
def sigma1Core (x : U32Ct) : U32Ct :=
  ((rotateCore x 17).bitxor (rotateCore x 19)).bitxor (shiftCore x 10)

/-- Pure counterpart of `capsigma0` (all shifts in bounds). -/
def capsigma0Core (x : U32Ct) : U32Ct :=
  ((rotateCore x 2).bitxor (rotateCore x 13)).bitxor (rotateCore x 22)

/-- Pure counterpart of `capsigma1` (all shifts in bounds). -/
def capsigma1Core (x : U32Ct) : U32Ct :=
  ((rotateCore x 6).bitxor (rotateCore x 11)).bitxor (rotateCore x 25)

theorem sigma0_eq (x : U32Ct) : sigma0 x = some (sigma0Core x) := by
  rw [sigma0, rotate_right_eq _ _ (by omega), rotate_right_eq _ _ (by omega),
    shift_right_eq _ _ (by omega)]
  rfl

theorem sigma1_eq (x : U32Ct) : sigma1 x = some (sigma1Core x) := by
  rw [sigma1, rotate_right_eq _ _ (by omega), rotate_right_eq _ _ (by omega),
    shift_right_eq _ _ (by omega)]
  rfl

theorem capsigma0_eq (x : U32Ct) : capsigma0 x = some (capsigma0Core x) := by
  rw [capsigma0, rotate_right_eq _ _ (by omega), rotate_right_eq _ _ (by omega),
    rotate_right_eq _ _ (by omega)]
  rfl

theorem capsigma1_eq (x : U32Ct) : capsigma1 x = some (capsigma1Core x) := by
  rw [capsigma1, rotate_right_eq _ _ (by omega), rotate_right_eq _ _ (by omega),
    rotate_right_eq _ _ (by omega)]
  rfl

/-! Reference `Nat` semantics of the helpers (the FIPS 180-4 functions
on 32-bit words). -/

/-- Reference σ0. -/
def sigma0N (x : Nat) : Nat := rotr32 x 7 ^^^ rotr32 x 18 ^^^ x / 2 ^ 3

/-- Reference σ1. -/
def sigma1N (x : Nat) : Nat := rotr32 x 17 ^^^ rotr32 x 19 ^^^ x / 2 ^ 10

/-- Reference Σ0. -/
def capsigma0N (x : Nat) : Nat := rotr32 x 2 ^^^ rotr32 x 13 ^^^ rotr32 x 22

/-- Reference Σ1. -/
def capsigma1N (x : Nat) : Nat := rotr32 x 6 ^^^ rotr32 x 11 ^^^ rotr32 x 25

/-- Reference CH, with 32-bit complement written as XOR with `2^32-1`. -/
def chN (x y z : Nat) : Nat := (x &&& y) ^^^ ((x ^^^ (2 ^ 32 - 1)) &&& z)

/-- Reference MAJ. -/
def majN (x y z : Nat) : Nat := (x &&& y) ^^^ (x &&& z) ^^^ (y &&& z)

theorem decrypt_sigma0Core (x : U32Ct) :
    (sigma0Core x).decrypt = sigma0N x.decrypt := by
  rw [sigma0Core, sigma0N, decrypt_bitxor, decrypt_bitxor,
    decrypt_rotateCore _ _ (by omega), decrypt_rotateCore _ _ (by omega),
    decrypt_shiftCore _ _ (by omega)]

theorem decrypt_sigma1Core (x : U32Ct) :
    (sigma1Core x).decrypt = sigma1N x.decrypt := by
  rw [sigma1Core, sigma1N, decrypt_bitxor, decrypt_bitxor,
    decrypt_rotateCore _ _ (by omega), decrypt_rotateCore _ _ (by omega),
    decrypt_shiftCore _ _ (by omega)]

theorem decrypt_capsigma0Core (x : U32Ct) :
    (capsigma0Core x).decrypt = capsigma0N x.decrypt := by
  rw [capsigma0Core, capsigma0N, decrypt_bitxor, decrypt_bitxor,
    decrypt_rotateCore _ _ (by omega), decrypt_rotateCore _ _ (by omega),
    decrypt_rotateCore _ _ (by omega)]

theorem decrypt_capsigma1Core (x : U32Ct) :
    (capsigma1Core x).decrypt = capsigma1N x.decrypt := by
  rw [capsigma1Core, capsigma1N, decrypt_bitxor, decrypt_bitxor,
    decrypt_rotateCore _ _ (by omega), decrypt_rotateCore _ _ (by omega),
    decrypt_rotateCore _ _ (by omega)]

theorem decrypt_ch (x y z : U32Ct) :
    (ch x y z).decrypt = chN x.decrypt y.decrypt z.decrypt := by
  rw [ch, chN, decrypt_bitxor, decrypt_bitand, decrypt_bitand, decrypt_bitnot]

theorem decrypt_maj (x y z : U32Ct) :
    (maj x y z).decrypt = majN x.decrypt y.decrypt z.decrypt := by
  rw [maj, majN, decrypt_bitxor, decrypt_bitxor, decrypt_bitand,
    decrypt_bitand, decrypt_bitand]

/-! Padding (`pad_message` from `src/util.rs`). -/

/-- The zero-padding `while` loop of `pad_message`: push `0x00` bytes
while `(len·8 + 64) mod 512 ≠ 0`. -/
def padZeroLoop (msg : List Nat) : List Nat :=
  if (msg.length * 8 + 64) % 512 ≠ 0 then padZeroLoop (msg ++ [0x00]) else msg
termination_by (120 - msg.length % 64) % 64
decreasing_by
  simp_wf
  omega

/-- Big-endian bytes of a `u64` value (`u64::to_be_bytes`). -/
def u64_to_be_bytes (x : Nat) : List Nat :=
  [x / 2 ^ 56 % 256, x / 2 ^ 48 % 256, x / 2 ^ 40 % 256, x / 2 ^ 32 % 256,
   x / 2 ^ 24 % 256, x / 2 ^ 16 % 256, x / 2 ^ 8 % 256, x % 256]

/-- `pad_message` from `src/util.rs`: record the bit length (as `u64`,
hence mod `2^64`), push `0x80`, pad with zero bytes, append the
big-endian bit length. -/
def pad_message (msg : List Nat) : List Nat :=
  let length := msg.length * 8 % 2 ^ 64
  let msg1 := msg ++ [0x80]
  let msg2 := padZeroLoop msg1
  msg2 ++ u64_to_be_bytes length

/-- Closed form of the zero-padding loop. -/
theorem padZeroLoop_eq (msg : List Nat) :
    padZeroLoop msg =
      msg ++ List.replicate ((120 - msg.length % 64) % 64) 0 := by
  generalize hfuel : (120 - msg.length % 64) % 64 = fuel
  induction fuel generalizing msg with
  | zero =>
    have h56 : msg.length % 64 = 56 := by omega
    rw [padZeroLoop, if_neg (by omega)]
    simp
  | succ fuel ih =>
    have hne : msg.length % 64 ≠ 56 := by omega
    rw [padZeroLoop, if_pos (by omega)]
    rw [ih (msg ++ [0]) (by rw [List.length_append]; simp; omega)]
    simp [List.append_assoc, List.replicate_succ]

/-! The evaluator of `src/lib.rs`. -/

/-- The Rust working state `[U32Ct; 8]` (and its `Nat` counterpart),
with the eight slots named `a..h` as in the algorithm. -/
structure Words8 (α : Type) where
  a : α
  b : α
  c : α
  d : α
  e : α
  f : α
  g : α
  h : α
deriving DecidableEq

/-- Rust `[T; 8]::rotate_right(1)`: every slot moves one place towards
the back, the last wraps to the front. -/
def Words8.rotr1 (A : Words8 α) : Words8 α :=
  ⟨A.h, A.a, A.b, A.c, A.d, A.e, A.f, A.g⟩

def Words8.map (fn : α → β) (A : Words8 α) : Words8 β :=
  ⟨fn A.a, fn A.b, fn A.c, fn A.d, fn A.e, fn A.f, fn A.g, fn A.h⟩

def Words8.zipWith (fn : α → β → γ) (A : Words8 α) (B : Words8 β) :
    Words8 γ :=
  ⟨fn A.a B.a, fn A.b B.b, fn A.c B.c, fn A.d B.d, fn A.e B.e, fn A.f B.f,
   fn A.g B.g, fn A.h B.h⟩

def Words8.toList (A : Words8 α) : List α :=
  [A.a, A.b, A.c, A.d, A.e, A.f, A.g, A.h]

/-- Modelled from the spec: `src/constants.rs` is not present under
`src/`; the spec (§3, §6) fixes `H` as the standard SHA-256 initial hash
values of FIPS 180-4 §5.3.3, embedded verbatim. -/
def H : Words8 Nat :=
  ⟨1779033703, 3144134277, 1013904242, 2773480762,
   1359893119, 2600822924, 528734635, 1541459225⟩

/-- Modelled from the spec: `src/constants.rs` is not present under
`src/`; the spec (§3, §6) fixes `K` as the standard SHA-256 round
constants of FIPS 180-4 §4.2.2, embedded verbatim. -/
def K : List Nat :=
  [1116352408, 1899447441, 3049323471, 3921009573,
   961987163, 1508970993, 2453635748, 2870763221,
   3624381080, 310598401, 607225278, 1426881987,
   1925078388, 2162078206, 2614888103, 3248222580,
   3835390401, 4022224774, 264347078, 604807628,
   770255983, 1249150122, 1555081692, 1996064986,
   2554220882, 2821834349, 2952996808, 3210313671,
   3336571891, 3584528711, 113926993, 338241895,
   666307205, 773529912, 1294757372, 1396182291,
   1695183700, 1986661051, 2177026350, 2456956037,
   2730485921, 2820302411, 3259730800, 3345764771,
   3516065817, 3600352804, 4094571909, 275423344,
   430227734, 506948616, 659060556, 883997877,
   958139571, 1322822218, 1537002063, 1747873779,
   1955562222, 2024104815, 2227730452, 2361852424,
   2428436474, 2756734187, 3204031479, 3329325298]

/-- `InputCiphertext` from `src/lib.rs`. -/
structure InputCiphertext where
  inner : List U32Ct

/-- `DigestCiphertext` from `src/lib.rs`. -/
structure DigestCiphertext where
  inner : Words8 U32Ct

/-- `round` from `src/lib.rs`: `t1 = h + Σ1(e) + CH(e,f,g) + k_arg`,
`t2 = Σ0(a) + MAJ(a,b,c)`, then `d += t1` and `h = t1 + t2`, all other
slots unchanged. -/
def round (alphabet : Words8 U32Ct) (kp : U32Ct) :
    Option (Words8 U32Ct) := do
  let cs1 ← capsigma1 alphabet.e
  let t1 := ((alphabet.h.add cs1).add (ch alphabet.e alphabet.f alphabet.g)).add kp
  let cs0 ← capsigma0 alphabet.a
  let t2 := cs0.add (maj alphabet.a alphabet.b alphabet.c)
  some { alphabet with d := alphabet.d.add t1, h := t1.add t2 }

/-- The `array::from_fn` loop of `sha256_tfhe` (rounds `0..16`): pull
the next input word, run a round with `k[i] + W[i]`, rotate the
alphabet; returns the 16 pulled words, the final alphabet and the
remaining input (`none` models a failing `next().unwrap()`). -/
def scheduleRounds : List U32Ct → List U32Ct → Words8 U32Ct →
    Option (List U32Ct × Words8 U32Ct × List U32Ct)
  | [], rest, alphabet => some ([], alphabet, rest)
  | kp :: ks, rest, alphabet =>
    match rest with
    | [] => none
    | wi :: rest' => do
      let k_w := kp.add wi
      let alphabet' ← round alphabet k_w
      let out ← scheduleRounds ks rest' alphabet'.rotr1
      some (wi :: out.1, out.2.1, out.2.2)

/-- The rounds `16..64` of `sha256_tfhe`: update the 16-slot schedule
window in place, run a round with `W[j] + k[i]`, rotate the alphabet.
`ks` carries `k[i..64]` while `i` tracks the loop index. -/
def expandRounds : List U32Ct → Nat → List U32Ct → Words8 U32Ct →
    Option (List U32Ct × Words8 U32Ct)
  | [], _, w, alphabet => some (w, alphabet)
  | kp :: ks, i, w, alphabet => do
    let wo0 ← w[i % 16]?
    let wo1 ← w[(i + 1) % 16]?
    let wo9 ← w[(i + 9) % 16]?
    let wo14 ← w[(i + 14) % 16]?
    let s0 ← sigma0 wo1
    let s1 ← sigma1 wo14
    let wo0' := ((wo0.add s0).add s1).add wo9
    let w' := w.set (i % 16) wo0'
    let k_wo0 := wo0'.add kp
    let alphabet' ← round alphabet k_wo0
    expandRounds ks (i + 1) w' alphabet'.rotr1

/-- The per-block loop of `sha256_tfhe`: schedule rounds, expansion
rounds, then the chaining update `s[i] += alphabet[i]`. -/
def processBlocks : Nat → List U32Ct → List U32Ct → Words8 U32Ct →
    Option (Words8 U32Ct)
  | 0, _, _, s => some s
  | blocks + 1, k, rest, s => do
    let out1 ← scheduleRounds (k.take 16) rest s
    let out2 ← expandRounds (k.drop 16) 16 out1.1 out1.2.1
    let s' := s.zipWith U32Ct.add out2.2
    processBlocks blocks k out1.2.2 s'

/-- `sha256_tfhe` from `src/lib.rs`.  The `assert_eq!(message_length %
16, 0)` abort is modelled by `none`. -/
def sha256_tfhe (input_ct : InputCiphertext) : Option DigestCiphertext :=
  let message_length := input_ct.inner.length
  let blocks := message_length / 16
  if message_length % 16 ≠ 0 then none
  else do
    let s := H.map U32Ct.trivial_encrypt
    let k := K.map U32Ct.trivial_encrypt
    let sF ← processBlocks blocks k input_ct.inner s
    some ⟨sF⟩

/-- Rust `u32::to_be_bytes`. -/
def u32_to_be_bytes (x : Nat) : List Nat :=
  [x / 2 ^ 24 % 256, x / 2 ^ 16 % 256, x / 2 ^ 8 % 256, x % 256]

/-- `decrypt_hash` from `src/lib.rs`: decrypt the eight digest words and
serialize each big-endian. -/
def decrypt_hash (digest_ct : DigestCiphertext) : List Nat :=
  ((digest_ct.inner.toList.map U32Ct.decrypt).map u32_to_be_bytes).flatten

/-- Rust `array_chunks::<4>`: consecutive 4-byte chunks (any remainder
is discarded). -/
def chunks4 : List Nat → List (List Nat)
  | b0 :: b1 :: b2 :: b3 :: rest => [b0, b1, b2, b3] :: chunks4 rest
  | _ => []

/-- Rust `u32::from_be_bytes` on a 4-byte chunk. -/
def u32_from_be_bytes (bs : List Nat) : Nat :=
  match bs with
  | [b0, b1, b2, b3] => b0 * 2 ^ 24 + b1 * 2 ^ 16 + b2 * 2 ^ 8 + b3
  | _ => 0

/-- `encrypt_input_helper` from `src/lib.rs`: pad, chunk into big-endian
`u32` words, encrypt each word. -/
def encrypt_input_helper (message : List Nat) (enc : Nat → U32Ct) :
    InputCiphertext :=
  ⟨(chunks4 (pad_message message)).map (fun cbytes =>
    enc (u32_from_be_bytes cbytes))⟩

/-- `encrypt_input` from `src/lib.rs`. -/
def encrypt_input (message : List Nat) : InputCiphertext :=
  encrypt_input_helper message U32Ct.encrypt

/-- `trivial_encrypt_input` from `src/lib.rs`. -/
def trivial_encrypt_input (message : List Nat) : InputCiphertext :=
  encrypt_input_helper message U32Ct.trivial_encrypt

/-! Reference SHA-256 (FIPS 180-4) over `Nat`, used as the
specification side of the refinement claims. -/

/-- Addition of 32-bit words. -/
def addN (x y : Nat) : Nat := (x + y) % 2 ^ 32

/-- One textbook SHA-256 compression round: the assignment chain
`h←g; g←f; f←e; e←d+t1; d←c; c←b; b←a; a←t1+t2` with
`t1 = h + Σ1(e) + CH(e,f,g) + K_t + W_t` and `t2 = Σ0(a) + MAJ(a,b,c)`. -/
def refStep (A : Words8 Nat) (kt wt : Nat) : Words8 Nat :=
  let t1 := (A.h + capsigma1N A.e + chN A.e A.f A.g + kt + wt) % 2 ^ 32
  let t2 := (capsigma0N A.a + majN A.a A.b A.c) % 2 ^ 32
  ⟨(t1 + t2) % 2 ^ 32, A.a, A.b, A.c, (A.d + t1) % 2 ^ 32, A.e, A.f, A.g⟩

/-- Message-schedule expansion: starting from the 16 block words, append
`W_t = σ1(W_{t-2}) + W_{t-7} + σ0(W_{t-15}) + W_{t-16}` (mod `2^32`)
until 64 words exist. -/
def refScheduleGo : Nat → List Nat → List Nat
  | 0, acc => acc
  | n + 1, acc =>
    let t := acc.length
    let w := (sigma1N (acc.getD (t - 2) 0) + acc.getD (t - 7) 0 +
      sigma0N (acc.getD (t - 15) 0) + acc.getD (t - 16) 0) % 2 ^ 32
    refScheduleGo n (acc ++ [w])

/-- The 64-word message schedule of one block. -/
def refSchedule (block : List Nat) : List Nat := refScheduleGo 48 block

/-- Fold the textbook round over a list of `(K_t, W_t)` pairs. -/
def refRoundsGo : List (Nat × Nat) → Words8 Nat → Words8 Nat
  | [], A => A
  | kw :: rest, A => refRoundsGo rest (refStep A kw.1 kw.2)

/-- Textbook SHA-256 compression of one 16-word block into the chaining
state, including the final chaining addition. -/
def refBlock (s : Words8 Nat) (block : List Nat) : Words8 Nat :=
  let sched := refSchedule block
  let A := refRoundsGo (K.zip sched) s
  s.zipWith addN A

/-- Iterate the compression function over `blocks` 16-word blocks. -/
def refBlocksGo : Nat → List Nat → Words8 Nat → Words8 Nat
  | 0, _, s => s
  | blocks + 1, ws, s => refBlocksGo blocks (ws.drop 16) (refBlock s (ws.take 16))

/-- FIPS 180-4 padding in closed form: `0x80`, then the minimal number
of zero bytes making the length 56 mod 64, then the 64-bit big-endian
bit length. -/
def refPad (message : List Nat) : List Nat :=
  message ++ 0x80 :: (List.replicate ((120 - (message.length + 1) % 64) % 64) 0
    ++ u64_to_be_bytes (message.length * 8 % 2 ^ 64))

/-- Big-endian 32-bit words of a padded byte stream. -/
def refToWords (padded : List Nat) : List Nat :=
  (chunks4 padded).map u32_from_be_bytes

/-- Reference SHA-256 digest (32 bytes) of a byte sequence. -/
def refSha (message : List Nat) : List Nat :=
  let ws := refToWords (refPad message)
  let sF := refBlocksGo (ws.length / 16) ws H
  (sF.toList.map u32_to_be_bytes).flatten

/-! Refinement: the encrypted evaluator computes the reference
SHA-256 on decrypted values. -/

/-- Decryption of an 8-word state. -/
def decState (A : Words8 U32Ct) : Words8 Nat := A.map U32Ct.decrypt

/-- Pure counterpart of `round` (the sigma shifts are in bounds). -/
def roundCore (alphabet : Words8 U32Ct) (kp : U32Ct) : Words8 U32Ct :=
  let t1 := ((alphabet.h.add (capsigma1Core alphabet.e)).add
    (ch alphabet.e alphabet.f alphabet.g)).add kp
  let t2 := (capsigma0Core alphabet.a).add
    (maj alphabet.a alphabet.b alphabet.c)
  { alphabet with d := alphabet.d.add t1, h := t1.add t2 }

theorem round_eq (A : Words8 U32Ct) (kp : U32Ct) :
    round A kp = some (roundCore A kp) := by
  rw [round, capsigma1_eq, capsigma0_eq]
  rfl

/-- One source round followed by the alphabet rotation is, on decrypted
values, the textbook round with key word `kt` and schedule word `wt`,
whenever the prepared round key decrypts to `(kt + wt) % 2^32`. -/
theorem decState_roundCore_rotr1 (A : Words8 U32Ct) (kq : U32Ct)
    (kt wt : Nat) (hk : kq.decrypt = (kt + wt) % 2 ^ 32) :
    decState (roundCore A kq).rotr1 = refStep (decState A) kt wt := by
  simp only [decState, roundCore, Words8.rotr1, Words8.map, refStep,
    decrypt_add, decrypt_ch, decrypt_maj, decrypt_capsigma0Core,
    decrypt_capsigma1Core, hk, Words8.mk.injEq, true_and, and_true,
    eq_self_iff_true]
  refine ⟨by omega, by omega⟩

theorem refRoundsGo_append (l1 l2 : List (Nat × Nat)) (A : Words8 Nat) :
    refRoundsGo (l1 ++ l2) A = refRoundsGo l2 (refRoundsGo l1 A) := by
  induction l1 generalizing A with
  | nil => rfl
  | cons kw l1 ih => rw [List.cons_append, refRoundsGo, refRoundsGo, ih]

/-- The first 16 rounds: the pulled words are the first 16 input words,
and on decrypted values the alphabet advances by the textbook rounds
with keys `ks` and words taken from the input. -/
theorem scheduleRounds_spec (ks : List U32Ct) :
    ∀ (rest : List U32Ct) (A : Words8 U32Ct),
    ks.length ≤ rest.length →
    ∃ AF, scheduleRounds ks rest A =
        some (rest.take ks.length, AF, rest.drop ks.length) ∧
      decState AF =
        refRoundsGo ((ks.map U32Ct.decrypt).zip
          ((rest.take ks.length).map U32Ct.decrypt)) (decState A) := by
  induction ks with
  | nil =>
    intro rest A _
    exact ⟨A, rfl, rfl⟩
  | cons kp ks ih =>
    intro rest A hlen
    cases rest with
    | nil => simp at hlen
    | cons wi rest' =>
      simp only [List.length_cons] at hlen
      obtain ⟨AF, h1, h2⟩ := ih rest' ((roundCore A (kp.add wi)).rotr1)
        (by omega)
      refine ⟨AF, ?_, ?_⟩
      · simp [scheduleRounds, round_eq, h1]
      · rw [h2]
        simp only [List.length_cons, List.take_succ_cons, List.map_cons,
          List.zip_cons_cons, refRoundsGo]
        congr 1
        exact decState_roundCore_rotr1 A (kp.add wi) kp.decrypt wi.decrypt
          (decrypt_add kp wi)

theorem getD_append_lt (l l2 : List Nat) (j : Nat) (hj : j < l.length) :
    (l ++ l2).getD j 0 = l.getD j 0 := by
  rw [List.getD_eq_getElem?_getD, List.getElem?_append_left hj,
    List.getD_eq_getElem?_getD]

theorem getD_append_self (l : List Nat) (w : Nat) :
    (l ++ [w]).getD l.length 0 = w := by
  rw [List.getD_eq_getElem?_getD, List.getElem?_append_right le_rfl]
  simp

theorem refScheduleGo_length (n : Nat) (acc : List Nat) :
    (refScheduleGo n acc).length = acc.length + n := by
  induction n generalizing acc with
  | zero => rfl
  | succ n ih =>
    rw [refScheduleGo, ih]
    rw [List.length_append]
    simp
    omega

theorem refScheduleGo_stable (n : Nat) (acc : List Nat) (j : Nat)
    (hj : j < acc.length) :
    (refScheduleGo n acc).getD j 0 = acc.getD j 0 := by
  induction n generalizing acc with
  | zero => rfl
  | succ n ih =>
    rw [refScheduleGo, ih _ (by rw [List.length_append]; simp; omega),
      getD_append_lt _ _ _ hj]

theorem refScheduleGo_rec (n : Nat) (acc : List Nat) (hacc : 16 ≤ acc.length)
    (t : Nat) (h1 : acc.length ≤ t) (h2 : t < acc.length + n) :
    (refScheduleGo n acc).getD t 0 =
      (sigma1N ((refScheduleGo n acc).getD (t - 2) 0) +
        (refScheduleGo n acc).getD (t - 7) 0 +
        sigma0N ((refScheduleGo n acc).getD (t - 15) 0) +
        (refScheduleGo n acc).getD (t - 16) 0) % 2 ^ 32 := by
  induction n generalizing acc with
  | zero => omega
  | succ n ih =>
    rcases Nat.eq_or_lt_of_le h1 with heq | hlt
    · rw [refScheduleGo]
      have hlen : (acc ++ [(sigma1N (acc.getD (acc.length - 2) 0) +
          acc.getD (acc.length - 7) 0 +
          sigma0N (acc.getD (acc.length - 15) 0) +
          acc.getD (acc.length - 16) 0) % 2 ^ 32]).length = acc.length + 1 := by
        rw [List.length_append]; rfl
      rw [refScheduleGo_stable n _ t (by rw [hlen]; omega),
        refScheduleGo_stable n _ (t - 2) (by rw [hlen]; omega),
        refScheduleGo_stable n _ (t - 7) (by rw [hlen]; omega),
        refScheduleGo_stable n _ (t - 15) (by rw [hlen]; omega),
        refScheduleGo_stable n _ (t - 16) (by rw [hlen]; omega)]
      rw [getD_append_lt _ _ (t - 2) (by omega),
        getD_append_lt _ _ (t - 7) (by omega),
        getD_append_lt _ _ (t - 15) (by omega),
        getD_append_lt _ _ (t - 16) (by omega)]
      rw [← heq, getD_append_self]
    · rw [refScheduleGo]
      exact ih _ (by rw [List.length_append]; simp; omega)
        (by rw [List.length_append]; simp; omega)
        (by rw [List.length_append]; simp; omega)

theorem refSchedule_length (block : List Nat) :
    (refSchedule block).length = block.length + 48 :=
  refScheduleGo_length 48 block

theorem refSchedule_first (block : List Nat) (j : Nat) (hj : j < block.length) :
    (refSchedule block).getD j 0 = block.getD j 0 :=
  refScheduleGo_stable 48 block j hj

theorem refSchedule_rec (block : List Nat) (hlen : block.length = 16)
    (t : Nat) (h1 : 16 ≤ t) (h2 : t < 64) :
    (refSchedule block).getD t 0 =
      (sigma1N ((refSchedule block).getD (t - 2) 0) +
        (refSchedule block).getD (t - 7) 0 +
        sigma0N ((refSchedule block).getD (t - 15) 0) +
        (refSchedule block).getD (t - 16) 0) % 2 ^ 32 :=
  refScheduleGo_rec 48 block (by omega) t (by omega) (by omega)

theorem getElem?_eq_some_getD {α : Type} (l : List α) (j : Nat) (d : α)
    (hj : j < l.length) : l[j]? = some (l.getD j d) := by
  rw [List.getD_eq_getElem?_getD, List.getElem?_eq_getElem hj]
  rfl

theorem K_length : K.length = 64 := by rfl

/-- The rounds `16..64`: under the schedule-window invariant, the
alphabet advances by the textbook rounds keyed by the round constants
and the message schedule `WL`. -/
theorem expandRounds_spec (WL : List Nat) (hWlen : WL.length = 64)
    (hWrec : ∀ t, 16 ≤ t → t < 64 → WL.getD t 0 =
      (sigma1N (WL.getD (t - 2) 0) + WL.getD (t - 7) 0 +
        sigma0N (WL.getD (t - 15) 0) + WL.getD (t - 16) 0) % 2 ^ 32) :
    ∀ (ks : List U32Ct) (i : Nat) (w : List U32Ct) (A : Words8 U32Ct),
    i + ks.length = 64 → 16 ≤ i → w.length = 16 →
    ks.map U32Ct.decrypt = K.drop i →
    (∀ r, r < 16 → (w.getD ((i + r) % 16) (U32Ct.encrypt 0)).decrypt =
      WL.getD (i - 16 + r) 0) →
    ∃ wF AF, expandRounds ks i w A = some (wF, AF) ∧
      decState AF = refRoundsGo ((K.drop i).zip (WL.drop i)) (decState A) := by
  intro ks
  induction ks with
  | nil =>
    intro i w A hi _ _ _ _
    simp only [List.length_nil, Nat.add_zero] at hi
    subst hi
    refine ⟨w, A, rfl, ?_⟩
    have hK : K.drop 64 = [] := List.drop_eq_nil_of_le (by rw [K_length])
    rw [hK]
    rfl
  | cons kp ks ih =>
    intro i w A hi h16 hw hks hinv
    have hilt : i < 64 := by
      simp only [List.length_cons] at hi
      omega
    have hiK : i < K.length := by rw [K_length]; exact hilt
    have hiW : i < WL.length := by rw [hWlen]; exact hilt
    -- split the decrypted key list
    rw [List.drop_eq_getElem_cons hiK, List.map_cons] at hks
    have hkp : kp.decrypt = K[i] := (List.cons.injEq _ _ _ _).mp hks |>.1
    have hks' : ks.map U32Ct.decrypt = K.drop (i + 1) :=
      (List.cons.injEq _ _ _ _).mp hks |>.2
    -- the four window reads
    have hm0 : i % 16 < w.length := by rw [hw]; omega
    have hm1 : (i + 1) % 16 < w.length := by rw [hw]; omega
    have hm9 : (i + 9) % 16 < w.length := by rw [hw]; omega
    have hm14 : (i + 14) % 16 < w.length := by rw [hw]; omega
    have hw0 := getElem?_eq_some_getD w (i % 16) (U32Ct.encrypt 0) hm0
    have hw1 := getElem?_eq_some_getD w ((i + 1) % 16) (U32Ct.encrypt 0) hm1
    have hw9 := getElem?_eq_some_getD w ((i + 9) % 16) (U32Ct.encrypt 0) hm9
    have hw14 := getElem?_eq_some_getD w ((i + 14) % 16) (U32Ct.encrypt 0) hm14
    -- abbreviations for the updated word, window and alphabet
    set wo0 := w.getD (i % 16) (U32Ct.encrypt 0) with hwo0
    set wo1 := w.getD ((i + 1) % 16) (U32Ct.encrypt 0) with hwo1
    set wo9 := w.getD ((i + 9) % 16) (U32Ct.encrypt 0) with hwo9
    set wo14 := w.getD ((i + 14) % 16) (U32Ct.encrypt 0) with hwo14
    set wo0' := ((wo0.add (sigma0Core wo1)).add (sigma1Core wo14)).add wo9
      with hwo0'
    set w' := w.set (i % 16) wo0' with hw'
    set karg := wo0'.add kp with hkarg
    set A'' := (roundCore A karg).rotr1 with hA''
    -- decrypted values from the invariant
    have hd0 : wo0.decrypt = WL.getD (i - 16) 0 := by
      have h := hinv 0 (by omega)
      simp only [Nat.add_zero] at h
      exact h
    have hd1 : wo1.decrypt = WL.getD (i - 15) 0 := by
      have := hinv 1 (by omega)
      have he : i - 16 + 1 = i - 15 := by omega
      rwa [he] at this
    have hd9 : wo9.decrypt = WL.getD (i - 7) 0 := by
      have := hinv 9 (by omega)
      have he : i - 16 + 9 = i - 7 := by omega
      rwa [he] at this
    have hd14 : wo14.decrypt = WL.getD (i - 2) 0 := by
      have := hinv 14 (by omega)
      have he : i - 16 + 14 = i - 2 := by omega
      rwa [he] at this
    -- the freshly computed word is the schedule word W_i
    have hdwo0' : wo0'.decrypt = WL.getD i 0 := by
      rw [hwo0', decrypt_add, decrypt_add, decrypt_add, decrypt_sigma0Core,
        decrypt_sigma1Core, hd0, hd1, hd9, hd14, hWrec i h16 hilt]
      omega
    -- invariant for the next index
    have hinv' : ∀ r, r < 16 →
        (w'.getD ((i + 1 + r) % 16) (U32Ct.encrypt 0)).decrypt =
          WL.getD (i + 1 - 16 + r) 0 := by
      intro r hr
      rcases Nat.lt_or_ge r 15 with hr15 | hr15
      · have hne : (i + 1 + r) % 16 ≠ i % 16 := by omega
        have hget : w'.getD ((i + 1 + r) % 16) (U32Ct.encrypt 0) =
            w.getD ((i + 1 + r) % 16) (U32Ct.encrypt 0) := by
          rw [hw', List.getD_eq_getElem?_getD,
            List.getElem?_set_ne (fun hcon => hne hcon.symm),
            List.getD_eq_getElem?_getD]
        rw [hget]
        have he : i + 1 + r = i + (r + 1) := by omega
        rw [he]
        have := hinv (r + 1) (by omega)
        have he2 : i - 16 + (r + 1) = i + 1 - 16 + r := by omega
        rwa [he2] at this
      · have hr15' : r = 15 := by omega
        subst hr15'
        have he : (i + 1 + 15) % 16 = i % 16 := by omega
        rw [he]
        have hget : w'.getD (i % 16) (U32Ct.encrypt 0) = wo0' := by
          rw [hw', List.getD_eq_getElem?_getD, List.getElem?_set_self hm0]
          rfl
        rw [hget, hdwo0']
        congr 1
        omega
    -- apply the induction hypothesis after this round
    obtain ⟨wF, AF, hrec, hdec⟩ := ih (i + 1) w' A''
      (by simp only [List.length_cons] at hi; omega) (by omega)
      (by rw [hw', List.length_set]; exact hw) hks' hinv'
    refine ⟨wF, AF, ?_, ?_⟩
    · simp only [expandRounds, hw0, hw1, hw9, hw14, sigma0_eq, sigma1_eq,
        round_eq, Option.some_bind]
      exact hrec
    · rw [hdec, List.drop_eq_getElem_cons hiK, List.drop_eq_getElem_cons hiW,
        List.zip_cons_cons, refRoundsGo]
      congr 1
      rw [hA'']
      refine decState_roundCore_rotr1 A karg K[i] WL[i] ?_
      rw [hkarg, decrypt_add, hdwo0', hkp]
      have hWi : WL.getD i 0 = WL[i] := List.getD_eq_getElem _ _ hiW
      rw [hWi]
      omega

theorem refScheduleGo_prefix (n : Nat) (acc : List Nat) :
    ∃ tail, refScheduleGo n acc = acc ++ tail := by
  induction n generalizing acc with
  | zero => exact ⟨[], by simp [refScheduleGo]⟩
  | succ n ih =>
    rw [refScheduleGo]
    obtain ⟨tail, htail⟩ := ih (acc ++ [(sigma1N (acc.getD (acc.length - 2) 0) +
      acc.getD (acc.length - 7) 0 + sigma0N (acc.getD (acc.length - 15) 0) +
      acc.getD (acc.length - 16) 0) % 2 ^ 32])
    exact ⟨_, by rw [htail, List.append_assoc]⟩

theorem refSchedule_take (block : List Nat) (hlen : block.length = 16) :
    (refSchedule block).take 16 = block := by
  obtain ⟨tail, htail⟩ := refScheduleGo_prefix 48 block
  rw [refSchedule, htail, ← hlen, List.take_left]

theorem decState_zipWith_add (S A : Words8 U32Ct) :
    decState (S.zipWith U32Ct.add A) =
      (decState S).zipWith addN (decState A) := by
  simp [decState, Words8.map, Words8.zipWith, decrypt_add, addN]

/-- One iteration of the outer block loop equals the reference block
compression, and the loop preserves that relation. -/
theorem processBlocks_spec : ∀ (blocksN : Nat) (k rest : List U32Ct)
    (s : Words8 U32Ct),
    k.map U32Ct.decrypt = K →
    rest.length = 16 * blocksN →
    ∃ sF, processBlocks blocksN k rest s = some sF ∧
      decState sF = refBlocksGo blocksN (rest.map U32Ct.decrypt) (decState s) := by
  intro blocksN
  induction blocksN with
  | zero =>
    intro k rest s _ _
    exact ⟨s, rfl, rfl⟩
  | succ blocksN ih =>
    intro k rest s hk hrest
    have hklen : k.length = 64 := by
      have := congrArg List.length hk
      rwa [List.length_map, K_length] at this
    have htake16 : (k.take 16).length = 16 := by
      rw [List.length_take, hklen]
      omega
    -- first 16 rounds
    obtain ⟨A1, hsch, hdecA1⟩ := scheduleRounds_spec (k.take 16) rest s
      (by rw [htake16, hrest]; omega)
    -- the decrypted block
    set blockN := (rest.take 16).map U32Ct.decrypt with hblockN
    have hblocklen : blockN.length = 16 := by
      rw [hblockN, List.length_map, List.length_take, hrest]
      omega
    set WL := refSchedule blockN with hWL
    have hWlen : WL.length = 64 := by
      rw [hWL, refSchedule_length, hblocklen]
    -- expansion rounds
    have hinv16 : ∀ r, r < 16 →
        (((rest.take 16).getD ((16 + r) % 16) (U32Ct.encrypt 0))).decrypt =
          WL.getD (16 - 16 + r) 0 := by
      intro r hr
      have hmod : (16 + r) % 16 = r := by omega
      rw [hmod]
      have hr' : r < (rest.take 16).length := by
        rw [List.length_take, hrest]; omega
      have h1 : ((rest.take 16).getD r (U32Ct.encrypt 0)).decrypt =
          blockN.getD r 0 := by
        rw [hblockN, List.getD_eq_getElem?_getD, List.getD_eq_getElem?_getD,
          List.getElem?_map, List.getElem?_eq_getElem hr']
        rfl
      rw [h1]
      have h2 : (16 : Nat) - 16 + r = r := by omega
      rw [h2, hWL, refSchedule_first blockN r (by rw [hblocklen]; exact hr)]
    obtain ⟨wF, AF, hexp, hdecAF⟩ := expandRounds_spec WL hWlen
      (fun t h1 h2 => refSchedule_rec blockN hblocklen t h1 h2)
      (k.drop 16) 16 (rest.take 16) A1
      (by rw [List.length_drop, hklen])
      le_rfl
      (by rw [List.length_take, hrest]; omega)
      (by rw [List.map_drop, hk])
      hinv16
    -- assemble one block
    have hktake : (k.take 16).map U32Ct.decrypt = K.take 16 := by
      rw [List.map_take, hk]
    rw [hktake, htake16] at hdecA1
    rw [← hblockN] at hdecA1
    have hresttake : (rest.take 16).length = 16 := by
      rw [List.length_take, hrest]; omega
    -- chaining update and recursion
    obtain ⟨sF, hproc, hdecSF⟩ := ih k (rest.drop 16)
      (s.zipWith U32Ct.add AF) hk
      (by rw [List.length_drop, hrest]; omega)
    refine ⟨sF, ?_, ?_⟩
    · simp only [processBlocks, hsch, htake16, hexp, Option.bind_eq_bind,
        Option.some_bind]
      exact hproc
    · rw [hdecSF, decState_zipWith_add, hdecAF, hdecA1]
      -- fold the two partial round runs into the full 64 rounds
      have hsplit : K.zip WL =
          (K.take 16).zip (WL.take 16) ++ (K.drop 16).zip (WL.drop 16) := by
        have h1 : ((K.take 16).length : Nat) = (WL.take 16).length := by
          rw [List.length_take, List.length_take, K_length, hWlen]
        conv_lhs => rw [← List.take_append_drop 16 K,
          ← List.take_append_drop 16 WL]
        exact List.zip_append h1
      have hWtake : WL.take 16 = blockN := refSchedule_take blockN hblocklen
      have hmt : (rest.map U32Ct.decrypt).take 16 = blockN := by
        rw [hblockN, List.map_take]
      have hmd : (rest.map U32Ct.decrypt).drop 16 =
          (rest.drop 16).map U32Ct.decrypt := by
        rw [List.map_drop]
      have hstep : refBlocksGo (blocksN + 1) (rest.map U32Ct.decrypt)
          (decState s) = refBlocksGo blocksN
            ((rest.map U32Ct.decrypt).drop 16)
            (refBlock (decState s) ((rest.map U32Ct.decrypt).take 16)) := rfl
      have hrefblock : refBlock (decState s) blockN =
          (decState s).zipWith addN
            (refRoundsGo (K.zip (refSchedule blockN)) (decState s)) := rfl
      rw [hstep, hmt, hmd, hrefblock, ← hWL, hsplit, refRoundsGo_append,
        hWtake]

theorem K_bounded : ∀ x ∈ K, x < 2 ^ 32 := by decide

theorem decK : (K.map U32Ct.trivial_encrypt).map U32Ct.decrypt = K := by
  rw [List.map_map]
  conv_rhs => rw [← List.map_id K]
  apply List.map_congr_left
  intro x hx
  show (U32Ct.trivial_encrypt x).decrypt = x
  rw [decrypt_trivial_encrypt]
  exact Nat.mod_eq_of_lt (K_bounded x hx)

theorem decH : decState (H.map U32Ct.trivial_encrypt) = H := by decide

/-- `sha256_tfhe` on a well-formed input succeeds and computes the
reference block iteration on decrypted words. -/
theorem sha256_tfhe_spec (input : InputCiphertext)
    (hlen : input.inner.length % 16 = 0) :
    ∃ d, sha256_tfhe input = some d ∧
      decState d.inner = refBlocksGo (input.inner.length / 16)
        (input.inner.map U32Ct.decrypt) H := by
  obtain ⟨sF, hproc, hdec⟩ := processBlocks_spec (input.inner.length / 16)
    (K.map U32Ct.trivial_encrypt) input.inner (H.map U32Ct.trivial_encrypt)
    decK (by omega)
  refine ⟨⟨sF⟩, ?_, ?_⟩
  · rw [sha256_tfhe, if_neg (by omega)]
    simp only [hproc, Option.bind_eq_bind, Option.some_bind]
  · rw [hdec, decH]

theorem chunks4_length : ∀ (P : List Nat), (chunks4 P).length = P.length / 4
  | [] => rfl
  | [_] => by simp [chunks4]
  | [_, _] => by simp [chunks4]
  | [_, _, _] => by simp [chunks4]
  | b0 :: b1 :: b2 :: b3 :: rest => by
    have ih := chunks4_length rest
    simp only [chunks4, List.length_cons, ih]
    omega

theorem chunks4_bounded : ∀ (P : List Nat), (∀ x ∈ P, x < 256) →
    ∀ cb ∈ chunks4 P, u32_from_be_bytes cb < 2 ^ 32
  | [] => by intro _ cb hcb; simp [chunks4] at hcb
  | [_] => by intro _ cb hcb; simp [chunks4] at hcb
  | [_, _] => by intro _ cb hcb; simp [chunks4] at hcb
  | [_, _, _] => by intro _ cb hcb; simp [chunks4] at hcb
  | b0 :: b1 :: b2 :: b3 :: rest => by
    intro hP cb hcb
    simp only [chunks4, List.mem_cons] at hcb
    rcases hcb with h | h
    · subst h
      have h0 := hP b0 (by simp)
      have h1 := hP b1 (by simp)
      have h2 := hP b2 (by simp)
      have h3 := hP b3 (by simp)
      simp only [u32_from_be_bytes]
      omega
    · exact chunks4_bounded rest
        (fun x hx => hP x (by simp [hx])) cb h

theorem pad_message_eq_refPad (message : List Nat) :
    pad_message message = refPad message := by
  rw [pad_message, refPad, padZeroLoop_eq, List.length_append]
  simp only [List.length_cons, List.length_nil]
  rw [List.append_assoc, List.append_assoc]
  congr 1

theorem refPad_bytes (message : List Nat) (hb : ∀ x ∈ message, x < 256) :
    ∀ x ∈ refPad message, x < 256 := by
  intro x hx
  rw [refPad] at hx
  rcases List.mem_append.mp hx with h | h
  · exact hb x h
  · rcases List.mem_cons.mp h with h2 | h2
    · omega
    · rcases List.mem_append.mp h2 with h3 | h3
      · have := List.eq_of_mem_replicate h3
        omega
      · simp only [u64_to_be_bytes, List.mem_cons, List.not_mem_nil,
          or_false] at h3
        rcases h3 with h4 | h4 | h4 | h4 | h4 | h4 | h4 | h4 <;> subst h4 <;>
          omega

theorem refPad_length (message : List Nat) :
    (refPad message).length = message.length + 1 +
      (120 - (message.length + 1) % 64) % 64 + 8 := by
  simp only [refPad, List.length_append, List.length_cons,
    List.length_replicate, u64_to_be_bytes, List.length_nil]
  omega

theorem refPad_length_mod (message : List Nat) :
    (refPad message).length % 64 = 0 := by
  rw [refPad_length]
  omega

theorem refPad_length_pos (message : List Nat) :
    0 < (refPad message).length := by
  rw [refPad_length]
  omega

theorem refToWords_refPad_mod (message : List Nat) :
    (refToWords (refPad message)).length % 16 = 0 := by
  rw [refToWords, List.length_map, chunks4_length]
  have := refPad_length_mod message
  omega

theorem encrypt_input_inner_dec (message : List Nat)
    (hb : ∀ x ∈ pad_message message, x < 256) :
    (encrypt_input message).inner.map U32Ct.decrypt =
      refToWords (pad_message message) := by
  rw [encrypt_input, encrypt_input_helper, refToWords, List.map_map]
  apply List.map_congr_left
  intro cb hcb
  have hbound := chunks4_bounded (pad_message message) hb cb hcb
  show (U32Ct.encrypt (u32_from_be_bytes cb)).decrypt = u32_from_be_bytes cb
  rw [decrypt_encrypt]
  exact Nat.mod_eq_of_lt hbound

theorem decrypt_hash_eq (d : DigestCiphertext) :
    decrypt_hash d = ((decState d.inner).toList.map u32_to_be_bytes).flatten :=
  rfl

/-- Main refinement: the full encrypted pipeline computes the reference
SHA-256 digest of the message. -/
theorem sha256_pipeline_correct (message : List Nat)
    (hb : ∀ x ∈ message, x < 256) :
    (sha256_tfhe (encrypt_input message)).map decrypt_hash =
      some (refSha message) := by
  have hpadeq := pad_message_eq_refPad message
  have hpadbytes : ∀ x ∈ pad_message message, x < 256 := by
    rw [hpadeq]
    exact refPad_bytes message hb
  have hlist : (encrypt_input message).inner.map U32Ct.decrypt =
      refToWords (refPad message) := by
    rw [encrypt_input_inner_dec message hpadbytes, hpadeq]
  have hlen2 : (encrypt_input message).inner.length =
      (refToWords (refPad message)).length := by
    rw [← hlist, List.length_map]
  have hlen : (encrypt_input message).inner.length % 16 = 0 := by
    rw [hlen2]
    exact refToWords_refPad_mod message
  obtain ⟨d, hsha, hdec⟩ := sha256_tfhe_spec _ hlen
  rw [hsha]
  rw [show Option.map decrypt_hash (some d) = some (decrypt_hash d) from rfl]
  congr 1
  rw [decrypt_hash_eq, hdec, hlist, hlen2, refSha]

/-! Claim C2 apparatus: the textbook assignment chain, modelled from the
spec, to be compared with the source's round-then-rotate formulation. -/

/-- Modelled from the spec (§4.5, ROUND definition): the textbook
SHA-256 assignment chain `h←g; g←f; f←e; e←d+t1; d←c; c←b; b←a;
a←t1+t2` with `t1 = h + Σ1(e) + CH(e,f,g) + k_arg` and
`t2 = Σ0(a) + MAJ(a,b,c)`, as a single step on the working state. -/
def textbookStep (A : Words8 U32Ct) (kp : U32Ct) :
    Option (Words8 U32Ct) := do
  let cs1 ← capsigma1 A.e
  let t1 := ((A.h.add cs1).add (ch A.e A.f A.g)).add kp
  let cs0 ← capsigma0 A.a
  let t2 := cs0.add (maj A.a A.b A.c)
  some ⟨t1.add t2, A.a, A.b, A.c, A.d.add t1, A.e, A.f, A.g⟩

/-- The source's iteration pattern: 64 times round-then-rotate (here
over an arbitrary list of prepared round keys). -/
def roundsLoop : List U32Ct → Words8 U32Ct → Option (Words8 U32Ct)
  | [], A => some A
  | kp :: ks, A => do
    let A' ← round A kp
    roundsLoop ks A'.rotr1

/-- Modelled from the spec: the same iteration with the textbook
assignment chain. -/
def textbookLoop : List U32Ct → Words8 U32Ct → Option (Words8 U32Ct)
  | [], A => some A
  | kp :: ks, A => do
    let A' ← textbookStep A kp
    textbookLoop ks A'

theorem round_rotr1_eq_textbookStep (A : Words8 U32Ct) (kp : U32Ct) :
    (round A kp).map Words8.rotr1 = textbookStep A kp := by
  rw [round_eq, textbookStep, capsigma1_eq, capsigma0_eq]
  rfl

/-! The ten claims. -/

/-- C2: one ROUND (t1 = h + Σ1(e) + CH(e,f,g) + k_arg; t2 = Σ0(a) +
MAJ(a,b,c); d' = d + t1; h' = t1 + t2) followed by rotating the state
right by one position produces exactly the state of the textbook
SHA-256 assignment chain h←g; g←f; f←e; e←d+t1; d←c; c←b; b←a;
a←t1+t2, for every working state and round key; hence the iterated
loop of round-then-rotate equals the iterated textbook chain. -/
theorem claim_C2 :
    (∀ (A : Words8 U32Ct) (kp : U32Ct),
      (round A kp).map Words8.rotr1 = textbookStep A kp) ∧
    (∀ (ks : List U32Ct) (A : Words8 U32Ct),
      roundsLoop ks A = textbookLoop ks A) := by
  refine ⟨round_rotr1_eq_textbookStep, ?_⟩
  intro ks
  induction ks with
  | nil => intro A; rfl
  | cons kp ks ih =>
    intro A
    rw [roundsLoop, textbookLoop, ← round_rotr1_eq_textbookStep, round_eq]
    simp only [Option.map_some, Option.bind_eq_bind, Option.some_bind]
    exact ih (roundCore A kp).rotr1

/-- C3 counterexample: as stated, the claim fails at shift 33 — Rust
`slice::rotate_left(33)` on a 32-slot array panics, so `rotate_right 33`
aborts rather than rotating by 33 mod 32 = 1. -/
theorem claim_C3_counterexample :
    ¬ (((U32Ct.encrypt 5).rotate_right 33).map U32Ct.decrypt =
      some (rotr32 5 (33 % 32))) := by decide

/-- C3 (amended): for every u32 `x` and shift ≤ 32, `rotate_right`
succeeds, is a pure index permutation of the 32 bit-ciphertexts (the
slot array rotated left by `shift`), and decrypts to
`x.rotate_right(shift mod 32)`; for shift > 32 the operation aborts. -/
theorem claim_C3 : ∀ (x shift : Nat), x < 2 ^ 32 → shift ≤ 32 →
    ((U32Ct.encrypt x).rotate_right shift =
      some (rotateCore (U32Ct.encrypt x) shift)) ∧
    ((U32Ct.encrypt x).rotate_right shift).map U32Ct.decrypt =
      some (rotr32 x shift) := by
  intro x shift hx hs
  refine ⟨rotate_right_eq _ _ hs, ?_⟩
  rw [rotate_right_eq _ _ hs]
  rw [show ((some (rotateCore (U32Ct.encrypt x) shift)).map U32Ct.decrypt) =
    some ((rotateCore (U32Ct.encrypt x) shift).decrypt) from rfl]
  rw [decrypt_rotateCore _ _ hs, decrypt_encrypt, Nat.mod_eq_of_lt hx]

theorem claim_C3_witness :
    (3472387250 : Nat) < 2 ^ 32 ∧ (12 : Nat) ≤ 32 ∧
    ((U32Ct.encrypt 3472387250).rotate_right 12).map U32Ct.decrypt =
      some (rotr32 3472387250 12) :=
  ⟨by decide, by decide, (claim_C3 3472387250 12 (by decide) (by decide)).2⟩

/-- C4 counterexample: σ1 applied to the encryption of 0x0000FFFF does
not decrypt to the spec's probe value 0x6006003F. -/
theorem claim_C4_counterexample :
    ¬ ((sigma1 (U32Ct.encrypt 0x0000FFFF)).map U32Ct.decrypt =
      some 0x6006003F) := by decide

/-- C4 (amended): σ1 (ROTR 17 ⊕ ROTR 19 ⊕ SHR 10) applied to the
encryption of 0x0000FFFF decrypts to 0x6000603F (the source's own test
value 0b01100000000000000110000000111111). -/
theorem claim_C4 :
    (sigma1 (U32Ct.encrypt 0x0000FFFF)).map U32Ct.decrypt =
      some 0x6000603F := by decide

/-- C5: for all u32 values, the ripple-carry adder built from the 1-bit
full adder computes addition modulo 2^32 on decrypted values. -/
theorem claim_C5 : ∀ (x y : Nat), x < 2 ^ 32 → y < 2 ^ 32 →
    ((U32Ct.encrypt x).add (U32Ct.encrypt y)).decrypt = (x + y) % 2 ^ 32 := by
  intro x y hx hy
  rw [decrypt_add, decrypt_encrypt, decrypt_encrypt, Nat.mod_eq_of_lt hx,
    Nat.mod_eq_of_lt hy]

theorem claim_C5_witness :
    (3472387250 : Nat) < 2 ^ 32 ∧ (964349245 : Nat) < 2 ^ 32 ∧
    ((U32Ct.encrypt 3472387250).add (U32Ct.encrypt 964349245)).decrypt =
      (3472387250 + 964349245) % 2 ^ 32 :=
  ⟨by decide, by decide, claim_C5 3472387250 964349245 (by decide) (by decide)⟩

/-- C8: encryption splits into 32 bits LSB-first (slot i holds bit i of
x) and decryption recomposes them: the round trip is the identity on
u32 values. -/
theorem claim_C8 : ∀ x : Nat, x < 2 ^ 32 →
    ((∀ i, i < 32 → (U32Ct.encrypt x).inner.getD i false = x.testBit i) ∧
      (U32Ct.encrypt x).decrypt = x) := by
  intro x hx
  constructor
  · intro i hi
    show (bits x).getD i false = x.testBit i
    rw [bits, bitsAux_getD]
    simp [hi]
  · rw [decrypt_encrypt]
    exact Nat.mod_eq_of_lt hx

theorem claim_C8_witness :
    (234353 : Nat) < 2 ^ 32 ∧ (U32Ct.encrypt 234353).decrypt = 234353 :=
  ⟨by decide, (claim_C8 234353 (by decide)).2⟩

/-- C9: `shift_right` with shift = 32 does not panic (Rust
`rotate_left(32)` on a 32-slot array is allowed), and every one of the
32 slots is overwritten with a trivially encrypted false, so the result
decrypts to 0 for every input word. -/
theorem claim_C9 : ∀ u : U32Ct,
    (u.shift_right 32).map U32Ct.decrypt = some 0 := by
  intro u
  rw [shift_right_eq u 32 le_rfl]
  rw [show (some (shiftCore u 32)).map U32Ct.decrypt =
    some ((shiftCore u 32).decrypt) from rfl]
  rw [decrypt_shiftCore u 32 le_rfl]
  congr 1
  exact Nat.div_eq_of_lt (decrypt_lt u)

/-- C7 counterexample: an input ciphertext with zero words (word count
0 is not a positive multiple of 16) does not abort — the claim's
"aborts whenever not a positive multiple" is false at word count 0. -/
theorem claim_C7_counterexample :
    (sha256_tfhe ⟨[]⟩).isSome = true := by decide

/-- C7 (amended): `sha256_tfhe` aborts exactly when the word count is
not a multiple of 16, and completes normally whenever the word count is
16·B for some B ≥ 0 (including B = 0); no recoverable error value is
ever returned (the result type offers none). -/
theorem claim_C7 : ∀ input : InputCiphertext,
    (input.inner.length % 16 ≠ 0 → sha256_tfhe input = none) ∧
    (input.inner.length % 16 = 0 → ∃ d, sha256_tfhe input = some d) := by
  intro input
  constructor
  · intro hne
    rw [sha256_tfhe, if_pos hne]
  · intro hz
    obtain ⟨d, hd, _⟩ := sha256_tfhe_spec input hz
    exact ⟨d, hd⟩

theorem claim_C7_witness :
    sha256_tfhe ⟨[U32Ct.encrypt 0]⟩ = none ∧
    ∃ d, sha256_tfhe ⟨[]⟩ = some d :=
  ⟨(claim_C7 ⟨[U32Ct.encrypt 0]⟩).1 (by decide),
    (claim_C7 ⟨[]⟩).2 (by decide)⟩

/-- C10: `sha256_tfhe` on an input ciphertext with zero words returns
without aborting, and the digest decrypts to the 8 standard SHA-256
initial hash values H serialized as 32 big-endian bytes (the block loop
runs zero times). -/
theorem claim_C10 :
    (sha256_tfhe ⟨[]⟩).map decrypt_hash =
      some [0x6a, 0x09, 0xe6, 0x67, 0xbb, 0x67, 0xae, 0x85,
            0x3c, 0x6e, 0xf3, 0x72, 0xa5, 0x4f, 0xf5, 0x3a,
            0x51, 0x0e, 0x52, 0x7f, 0x9b, 0x05, 0x68, 0x8c,
            0x1f, 0x83, 0xd9, 0xab, 0x5b, 0xe0, 0xcd, 0x19] := by decide

/-- C6: `pad_message` appends 0x80, then the minimal number of zero
bytes making the length 56 mod 64, then the 64-bit big-endian bit
length; the output's bit length is a positive multiple of 512; padding
the empty message gives 0x80 followed by 63 zero bytes, and padding
b"hello world" ends with the eight bytes 00 00 00 00 00 00 00 58. -/
theorem claim_C6 : ∀ message : List Nat,
    (pad_message message = message ++ 0x80 ::
      (List.replicate ((120 - (message.length + 1) % 64) % 64) 0
        ++ u64_to_be_bytes (message.length * 8 % 2 ^ 64))) ∧
    ((message.length + 1 + (120 - (message.length + 1) % 64) % 64) % 64
      = 56) ∧
    (∀ z, (message.length + 1 + z) % 64 = 56 →
      (120 - (message.length + 1) % 64) % 64 ≤ z) ∧
    ((pad_message message).length * 8) % 512 = 0 ∧
    0 < (pad_message message).length * 8 ∧
    pad_message [] = 0x80 :: List.replicate 63 0 ∧
    (pad_message [104, 101, 108, 108, 111, 32, 119, 111, 114, 108,
      100]).drop 56 = [0, 0, 0, 0, 0, 0, 0, 0x58] := by
  intro message
  refine ⟨pad_message_eq_refPad message, by omega, ?_, ?_, ?_, ?_, ?_⟩
  · intro z hz
    omega
  · rw [pad_message_eq_refPad]
    have := refPad_length_mod message
    omega
  · rw [pad_message_eq_refPad]
    have := refPad_length_pos message
    omega
  · rw [pad_message_eq_refPad]
    decide
  · rw [pad_message_eq_refPad]
    decide

theorem claim_C6_witness :
    (120 - (([] : List Nat).length + 1) % 64) % 64 ≤ 55 :=
  (claim_C6 []).2.2.1 55 (by decide)

set_option maxRecDepth 100000 in
/-- C1: for every byte sequence, decrypting the homomorphic SHA-256 of
the encrypted padded input yields the reference SHA-256 digest; in
particular the empty message, b"hello world" and the 112-byte two-block
vector produce the three canonical digests. -/
theorem claim_C1 :
    (∀ message : List Nat, (∀ x ∈ message, x < 256) →
      (sha256_tfhe (encrypt_input message)).map decrypt_hash =
        some (refSha message)) ∧
    (sha256_tfhe (encrypt_input [])).map decrypt_hash =
      some [0xe3, 0xb0, 0xc4, 0x42, 0x98, 0xfc, 0x1c, 0x14,
            0x9a, 0xfb, 0xf4, 0xc8, 0x99, 0x6f, 0xb9, 0x24,
            0x27, 0xae, 0x41, 0xe4, 0x64, 0x9b, 0x93, 0x4c,
            0xa4, 0x95, 0x99, 0x1b, 0x78, 0x52, 0xb8, 0x55] ∧
    (sha256_tfhe (encrypt_input [104, 101, 108, 108, 111, 32, 119, 111,
      114, 108, 100])).map decrypt_hash =
      some [0xb9, 0x4d, 0x27, 0xb9, 0x93, 0x4d, 0x3e, 0x08,
            0xa5, 0x2e, 0x52, 0xd7, 0xda, 0x7d, 0xab, 0xfa,
            0xc4, 0x84, 0xef, 0xe3, 0x7a, 0x53, 0x80, 0xee,
            0x90, 0x88, 0xf7, 0xac, 0xe2, 0xef, 0xcd, 0xe9] ∧
    (sha256_tfhe (encrypt_input [97, 98, 99, 100, 101, 102, 103, 104,
      98, 99, 100, 101, 102, 103, 104, 105, 99, 100, 101, 102, 103, 104,
      105, 106, 100, 101, 102, 103, 104, 105, 106, 107, 101, 102, 103,
      104, 105, 106, 107, 108, 102, 103, 104, 105, 106, 107, 108, 109,
      103, 104, 105, 106, 107, 108, 109, 110, 104, 105, 106, 107, 108,
      109, 110, 111, 105, 106, 107, 108, 109, 110, 111, 112, 106, 107,
      108, 109, 110, 111, 112, 113, 107, 108, 109, 110, 111, 112, 113,
      114, 108, 109, 110, 111, 112, 113, 114, 115, 109, 110, 111, 112,
      113, 114, 115, 116, 110, 111, 112, 113, 114, 115, 116,
      117])).map decrypt_hash =
      some [0xcf, 0x5b, 0x16, 0xa7, 0x78, 0xaf, 0x83, 0x80,
            0x03, 0x6c, 0xe5, 0x9e, 0x7b, 0x04, 0x92, 0x37,
            0x0b, 0x24, 0x9b, 0x11, 0xe8, 0xf0, 0x7a, 0x51,
            0xaf, 0xac, 0x45, 0x03, 0x7a, 0xfe, 0xe9, 0xd1] := by
  refine ⟨fun message hb => sha256_pipeline_correct message hb, ?_, ?_, ?_⟩
  · rw [sha256_pipeline_correct _ (by decide)]
    decide
  · rw [sha256_pipeline_correct _ (by decide)]
    decide
  · rw [sha256_pipeline_correct _ (by decide)]
    decide

theorem claim_C1_witness :
    (∀ x ∈ ([] : List Nat), x < 256) ∧
    (sha256_tfhe (encrypt_input [])).map decrypt_hash =
      some (refSha []) :=
  ⟨by decide, claim_C1.1 [] (by decide)⟩

end ShaTfhe
